import Mathlib

/-!
Verification of the JEPA world-model repository (models.py, main.py, train.py).

Shallow embedding conventions:
- Machine floats are idealized as rationals.  A division whose divisor is
  zero (0/0 or x/0), which in IEEE arithmetic yields NaN or an infinity, is
  modelled by the value none of Option: a none result means the float
  computation produced a non-finite value.
- torch square roots (torch.sqrt, and the one hidden inside torch.std and
  F.normalize) are modelled by an abstract function sq : Rat -> Rat passed as
  a parameter; concrete evaluations instantiate it with ratSqrt, which is
  exact on rationals whose numerator and denominator are perfect squares.
- A parameter tensor is flattened to a list of rationals; a model parameter
  carries its data, its requires_grad flag and its grad slot, mirroring a
  torch parameter leaf.
-/

namespace JEPA

/-- relu, as used by nn.ReLU and F.relu: pointwise max with 0. -/
def relu (q : ℚ) : ℚ := max q 0

/-- Dot product of two flat vectors (elementwise product, then sum). -/
def dot (a b : List ℚ) : ℚ := (List.zipWith (fun x y => x * y) a b).sum

/-- Sum of squares of a flat vector. -/
def sumSq (l : List ℚ) : ℚ := (l.map (fun q => q * q)).sum

/-- Mean of a list of rationals.  torch .mean() of an empty tensor is NaN,
modelled as none. -/
def fmean (l : List ℚ) : Option ℚ :=
  if l.isEmpty then none else some (l.sum / l.length)

/-- Float division: a divisor of zero produces a non-finite value (NaN or
infinity), modelled as none. -/
def fdiv (a b : ℚ) : Option ℚ := if b = 0 then none else some (a / b)

/-- Exact rational square root used to instantiate the abstract sqrt in
concrete evaluations; exact whenever numerator and denominator are perfect
squares (the only inputs concrete theorems feed it). -/
def ratSqrt (q : ℚ) : ℚ := (Nat.sqrt q.num.toNat : ℚ) / (Nat.sqrt q.den : ℚ)

/-! ## Parameter-state model of JEPAModel (models.py lines 115-170)

A torch parameter leaf: data value, requires_grad flag, grad slot. -/

structure Param where
  data : ℚ
  requiresGrad : Bool
  grad : Option ℚ
  deriving Repr, DecidableEq

/-- Fresh parameter as torch creates it inside a module: gradient-tracked,
no gradient accumulated yet. -/
def freshParam (q : ℚ) : Param := { data := q, requiresGrad := true, grad := none }

/-- The three parameter groups of JEPAModel: online_encoder, target_encoder,
predictor (models.py lines 124-129).  Each group is its flattened parameter
list, in the order module.parameters() yields it. -/
structure JEPAState where
  online : List Param
  target : List Param
  predictorP : List Param
  deriving Repr, DecidableEq

/-- models.py lines 135-142, _update_target_encoder(tau):
for param_o, param_t in zip(online.parameters(), target.parameters()):
    param_t.data = param_t.data * tau + param_o.data * (1 - tau)
Runs under torch.no_grad() and writes .data only, so flags and grads are
untouched and only the target group changes. -/
def updateTarget (tau : ℚ) (s : JEPAState) : JEPAState :=
  { s with
    target := List.zipWith
      (fun po pt => { pt with data := pt.data * tau + po.data * (1 - tau) })
      s.online s.target }

/-- models.py lines 116-133, JEPAModel.__init__ with the randomly drawn
initial parameter data of the two encoders and the predictor supplied as
inputs (torch initializes the two Encoder instances with independent draws):
build both encoders, call _update_target_encoder(tau=1.0), then set
requires_grad = False on every target parameter. -/
def mkJEPA (onlineInit targetInit predInit : List ℚ) : JEPAState :=
  let s0 : JEPAState :=
    { online := onlineInit.map freshParam
      target := targetInit.map freshParam
      predictorP := predInit.map freshParam }
  let s1 := updateTarget 1 s0
  { s1 with target := s1.target.map (fun p => { p with requiresGrad := false }) }

/-- The operations the model (and its training loops) perform on parameter
state.  forwardOp and targetReprsOp read parameters but mutate nothing.
backwardOp models autograd: loss.backward() populates the grad slot of every
gradient-tracked leaf in the differentiated graph; the graph contains the
online encoder and predictor parameters (the prediction path), while every
TargetEncoder invocation sits inside torch.no_grad() and is detached, so
target parameters are not part of the graph.  optStepOp writes data where a
gradient is present; zeroGradOp clears the optimizer groups' grad slots. -/
inductive ModelOp where
  | updateTargetOp (tau : ℚ)
  | forwardOp
  | targetReprsOp
  | backwardOp
  | optStepOp (lr : ℚ)
  | zeroGradOp
  deriving Repr, DecidableEq

/-- Populate the grad slot of a gradient-tracked leaf (autograd never touches
a leaf whose requires_grad is false). -/
def setGradIfTracked (p : Param) : Param :=
  if p.requiresGrad then { p with grad := some 0 } else p

/-- Clear a grad slot (optimizer.zero_grad). -/
def clearGrad (p : Param) : Param := { p with grad := none }

/-- One gradient-descent write: only parameters holding a gradient move. -/
def sgdWrite (lr : ℚ) (p : Param) : Param :=
  match p.grad with
  | none => p
  | some g => { p with data := p.data - lr * g }

/-- Semantics of one model operation on parameter state. -/
def applyOp : ModelOp → JEPAState → JEPAState
  | ModelOp.updateTargetOp tau, s => updateTarget tau s
  | ModelOp.forwardOp, s => s
  | ModelOp.targetReprsOp, s => s
  | ModelOp.backwardOp, s =>
    { s with online := s.online.map setGradIfTracked
             predictorP := s.predictorP.map setGradIfTracked }
  | ModelOp.optStepOp lr, s =>
    { s with online := s.online.map (sgdWrite lr)
             predictorP := s.predictorP.map (sgdWrite lr) }
  | ModelOp.zeroGradOp, s =>
    { s with online := s.online.map clearGrad
             predictorP := s.predictorP.map clearGrad }

/-- Run a sequence of model operations from a starting state. -/
def runOps (ops : List ModelOp) (s : JEPAState) : JEPAState :=
  ops.foldl (fun st op => applyOp op st) s

/-! ## Auto-regressive rollout (models.py lines 144-161, JEPAModel.forward)

Obs stands for one [B,C,H,W] time-slice of the states tensor, Z for one
[B,repr_dim] latent slice, A for one [B,action_dim] action slice; the forward
method treats the online encoder and the predictor as black boxes, so the
embedding is parametric in them. -/

/-- The loop body of JEPAModel.forward: starting from current_repr, apply the
predictor once per action, each step feeding the previous predicted latent
back in. -/
def unroll {Z A : Type} (pred : Z → A → Z) : Z → List A → List Z
  | _, [] => []
  | cur, a :: rest =>
    let nxt := pred cur a
    nxt :: unroll pred nxt rest

/-- models.py lines 144-161: unpack T from states, encode states[:,0] with the
online encoder, then for t in range(T-1) apply the predictor to the previous
latent and actions[:,t], collecting T slices.  Indexing actions[:,t] past its
length, or states[:,0] of an empty time axis, raises in torch; both are
modelled as none. -/
def JEPAforward {Obs Z A : Type} (enc : Obs → Z) (pred : Z → A → Z)
    (states : List Obs) (actions : List A) : Option (List Z) :=
  match states with
  | [] => none
  | s0 :: _ =>
    if states.length - 1 ≤ actions.length then
      let current := enc s0
      some (current :: unroll pred current (actions.take (states.length - 1)))
    else none

/-- models.py lines 163-170, get_target_representations: flatten batch and
time, apply the target encoder to every frame, reshape back.  Because the
encoder acts on each frame independently, this is a per-frame map. -/
def getTargetRepresentations {Obs Z : Type} (tgtEnc : Obs → Z)
    (states : List (List Obs)) : List (List Z) :=
  states.map (fun traj => traj.map tgtEnc)

end JEPA

namespace JEPA

/-! ## Normalized contrastive loss (main.py lines 74-93, je_loss) -/

/-- F.normalize(v, dim=-1, p=2): v / max(l2norm v, 1e-12). -/
def l2normalize (sq : ℚ → ℚ) (v : List ℚ) : List ℚ :=
  let n := max (sq (sumSq v)) (1 / 10 ^ 12)
  v.map (fun q => q / n)

/-- Feature column j of a [N,D] matrix: entry j of every row (rows of torch
tensors are rectangular, so the default is never read on well-shaped
input). -/
def column (j : ℕ) (x : List (List ℚ)) : List ℚ := x.map (fun r => r.getD j 0)

/-- The feature columns of a [N,D] matrix, the view along which a dim=0
reduction of a rectangular torch tensor works: one list per feature index of
the first row. -/
def transposeL (x : List (List ℚ)) : List (List ℚ) :=
  (List.range (x.headD []).length).map (fun j => column j x)

/-- Unbiased variance of a flat list, as torch.var / torch.std compute it
with the default correction of 1: sum of squared deviations from the mean,
divided by (length - 1).  Length 0 gives NaN at the mean, length 1 divides
by zero; both are none. -/
def varU (col : List ℚ) : Option ℚ :=
  (fmean col).bind (fun m =>
    fdiv (sumSq (col.map (fun q => q - m))) ((col.length - 1 : ℕ) : ℚ))

/-- predictions.std(dim=1).mean() for a [B,T,D] tensor x given as B examples
of T rows of D features: per example and per feature, the unbiased standard
deviation across the time axis, then the mean of all B*D values. -/
def stdMean (sq : ℚ → ℚ) (x : List (List (List ℚ))) : Option ℚ :=
  (x.mapM (fun ex =>
    (transposeL ex).mapM (fun col => (varU col).map sq))).bind
  (fun stds => fmean stds.flatten)

/-- main.py lines 74-93, je_loss(predictions, targets) on [B,T,D] inputs:
normalize both along the feature axis, per-(b,t) cosine similarity as the
dot of the normalized rows, loss = 2 * (1 - cos).mean(), plus
0.1 * (|1 - predictions.std(dim=1).mean()| + |1 - targets.std(dim=1).mean()|)
computed on the normalized tensors (the code rebinds both names). -/
def jeLoss (sq : ℚ → ℚ) (predictions targets : List (List (List ℚ))) :
    Option ℚ :=
  (fmean (((List.zipWith (fun pe te => List.zipWith dot pe te)
      (predictions.map (fun ex => ex.map (l2normalize sq)))
      (targets.map (fun ex => ex.map (l2normalize sq)))).flatten).map
    (fun c => 1 - c))).bind (fun base =>
  (stdMean sq (predictions.map (fun ex => ex.map (l2normalize sq)))).bind
    (fun predStd =>
  (stdMean sq (targets.map (fun ex => ex.map (l2normalize sq)))).bind
    (fun targStd =>
  some (2 * base + (1 / 10) * (|1 - predStd| + |1 - targStd|)))))

/-- The claimed formula for je_loss, following the spec text: after
L2-normalizing both tensors along the feature axis, the mean over timesteps
of 2 * (1 - cosine similarity) - the cosine of two unit vectors being their
dot - plus 0.1 * (|1 - mean std of predicted vectors across the time axis| +
|1 - mean std of target vectors across the time axis|). -/
def jeSpecLoss (sq : ℚ → ℚ) (predictions targets : List (List (List ℚ))) :
    Option ℚ :=
  (fmean (((List.zipWith (fun pe te => List.zipWith dot pe te)
      (predictions.map (fun ex => ex.map (l2normalize sq)))
      (targets.map (fun ex => ex.map (l2normalize sq)))).flatten).map
    (fun c => 2 * (1 - c)))).bind (fun loss =>
  (stdMean sq (predictions.map (fun ex => ex.map (l2normalize sq)))).bind
    (fun predStd =>
  (stdMean sq (targets.map (fun ex => ex.map (l2normalize sq)))).bind
    (fun targStd =>
  some (loss + (1 / 10) * (|1 - predStd| + |1 - targStd|)))))

/-! ## VICReg loss (train.py lines 7-27) -/

/-- Split a list into consecutive chunks of width c (the reshape step of a
view to rows of width c); fuel bounds the recursion by the list length. -/
def chunksAux (c : ℕ) : ℕ → List ℚ → List (List ℚ)
  | 0, _ => []
  | _ + 1, [] => []
  | fuel + 1, a :: l => (a :: l).take c :: chunksAux c fuel ((a :: l).drop c)

/-- Chunks of width c covering the whole list. -/
def chunks (c : ℕ) (l : List ℚ) : List (List ℚ) := chunksAux c l.length l

/-- train.py lines 25-27, off_diagonal(x):
x.flatten()[:-1].view(n-1, n+1)[:, 1:].flatten() for an n x n matrix:
drop the last entry of the row-major flattening, reshape to rows of width
n+1, drop the first column, flatten. -/
def offDiagonal (m : List (List ℚ)) : List ℚ :=
  ((chunks (m.length + 1) m.flatten.dropLast).map (fun r => r.drop 1)).flatten

/-- F.mse_loss(x, y) with default mean reduction: mean over all entries of
the squared difference. -/
def mseLoss (x y : List (List ℚ)) : Option ℚ :=
  fmean ((List.zipWith
    (fun r s => List.zipWith (fun a b => (a - b) * (a - b)) r s) x y).flatten)

/-- x - x.mean(dim=0): center every column of a [B,D] matrix at its mean.
An empty batch makes the column means NaN. -/
def centerCols (x : List (List ℚ)) : Option (List (List ℚ)) :=
  ((transposeL x).mapM fmean).bind (fun mus =>
    some (x.map (fun r => List.zipWith (fun a m => a - m) r mus)))

/-- (xc.T @ xc) / (n - 1) for centered [B,D] xc: the D x D matrix of column
dot products, each divided by batch - 1.  batch <= 1 divides by zero, which
is non-finite in float arithmetic: none. -/
def covMatrix (xc : List (List ℚ)) : Option (List (List ℚ)) :=
  if ((xc.length - 1 : ℕ) : ℚ) = 0 then none
  else some ((transposeL xc).map (fun ci =>
    (transposeL xc).map (fun cj => dot ci cj / ((xc.length - 1 : ℕ) : ℚ))))

/-- Per-feature hinge penalties relu(1 - sqrt(var + 1/10000)) of a [B,D]
matrix: torch.sqrt(x.var(dim=0) + 0.0001) in train.py lines 12-13, followed
by relu(1 - std); the mean of these is the variance term of one side. -/
def stdHinges (sq : ℚ → ℚ) (x : List (List ℚ)) : Option (List ℚ) :=
  ((transposeL x).mapM (fun col => (varU col).map
    (fun v => sq (v + 1 / 10000)))).bind (fun stds =>
  some (stds.map (fun s => relu (1 - s))))

/-- train.py lines 7-23, vicreg_loss(x, y) on [B,D] inputs:
invariance F.mse_loss(x, y); variance mean(relu(1 - sqrt(var+1e-4))) summed
over both sides; covariance: center columns, cov = (x.T @ x)/(B-1), sum of
squares of off_diagonal(cov), summed over both sides; total
sim + 25 * var + 25 * cov. -/
def vicregLoss (sq : ℚ → ℚ) (x y : List (List ℚ)) : Option ℚ :=
  (mseLoss x y).bind (fun sim =>
  (stdHinges sq x).bind (fun hx =>
  (stdHinges sq y).bind (fun hy =>
  (fmean hx).bind (fun vx =>
  (fmean hy).bind (fun vy =>
  (centerCols x).bind (fun xc =>
  (centerCols y).bind (fun yc =>
  (covMatrix xc).bind (fun cx =>
  (covMatrix yc).bind (fun cy =>
  some (sim + 25 * (vx + vy)
    + 25 * (sumSq (offDiagonal cx) + sumSq (offDiagonal cy))))))))))))

/-- Sum of squares of one matrix row excluding the entry at the diagonal
index i. -/
def sumSqExcept : ℕ → List ℚ → ℚ
  | _, [] => 0
  | 0, _ :: r => sumSq r
  | i + 1, q :: r => q * q + sumSqExcept i r

/-- Row-by-row accumulation of the off-diagonal sum of squares, the row
index tracking the diagonal position. -/
def offDiagAux : ℕ → List (List ℚ) → ℚ
  | _, [] => 0
  | i, r :: rest => sumSqExcept i r + offDiagAux (i + 1) rest

/-- The sum of squared off-diagonal entries of a square matrix, as the spec
words it: for every row i, the squares of all entries except the i-th. -/
def offDiagSumSq (m : List (List ℚ)) : ℚ := offDiagAux 0 m

/-- The claimed formula for vicreg_loss as the spec words it, with the
epsilon of the implementation made explicit: invariance = mean squared
error; variance = mean over features of relu(1 - sqrt(variance + 1/10000))
for each side; covariance = sum of squared off-diagonal entries of each
side's (feature x feature) covariance matrix of the mean-centered batch,
divided by (batch - 1); total = invariance + 25*variance + 25*covariance. -/
def vicregSpecEps (sq : ℚ → ℚ) (x y : List (List ℚ)) : Option ℚ :=
  (mseLoss x y).bind (fun sim =>
  (stdHinges sq x).bind (fun hx =>
  (stdHinges sq y).bind (fun hy =>
  (fmean hx).bind (fun vx =>
  (fmean hy).bind (fun vy =>
  (centerCols x).bind (fun xc =>
  (centerCols y).bind (fun yc =>
  (covMatrix xc).bind (fun cx =>
  (covMatrix yc).bind (fun cy =>
  some (sim + 25 * (vx + vy)
    + 25 * (offDiagSumSq cx + offDiagSumSq cy)))))))))))

/-- Per-feature hinge penalties relu(1 - std) with the true per-batch
standard deviation sqrt(var), no epsilon - the variance term exactly as
claim C6 states it. -/
def stdHingesClaim (sq : ℚ → ℚ) (x : List (List ℚ)) : Option (List ℚ) :=
  ((transposeL x).mapM (fun col => (varU col).map sq)).bind (fun stds =>
  some (stds.map (fun s => relu (1 - s))))

/-- The vicreg formula exactly as claim C6 states it: the variance term uses
the per-batch standard deviation itself, relu(1 - sqrt(var)), with no
epsilon. -/
def vicregClaimFormula (sq : ℚ → ℚ) (x y : List (List ℚ)) : Option ℚ :=
  (mseLoss x y).bind (fun sim =>
  (stdHingesClaim sq x).bind (fun hx =>
  (stdHingesClaim sq y).bind (fun hy =>
  (fmean hx).bind (fun vx =>
  (fmean hy).bind (fun vy =>
  (centerCols x).bind (fun xc =>
  (centerCols y).bind (fun yc =>
  (covMatrix xc).bind (fun cx =>
  (covMatrix yc).bind (fun cy =>
  some (sim + 25 * (vx + vy)
    + 25 * (offDiagSumSq cx + offDiagSumSq cy)))))))))))

end JEPA

namespace JEPA

/-! ## Encoder and Predictor networks (models.py lines 72-112)

A [C,H,W] frame is a list of channel planes, each a list of rows. -/

/-- A single-channel image plane. -/
def Plane : Type := List (List ℚ)

/-- A [C,H,W] tensor: channels of planes. -/
def Tensor3 : Type := List Plane

/-- Read a plane at integer coordinates with zero outside the bounds; the
convolutions below only step at most one cell outside the image, so this is
exactly their padding=1 zero padding. -/
def at2 (img : Plane) (i j : ℤ) : ℚ :=
  if i < 0 ∨ j < 0 then 0 else (img.getD i.toNat []).getD j.toNat 0

/-- Spatial extent of a convolution output: (n + 2*pad - k) / stride + 1
with kernel 3, stride 2, padding 1 as in Encoder.conv_net. -/
def convOutDim (n : ℕ) : ℕ := (n + 2 * 1 - 3) / 2 + 1

/-- One nn.Conv2d(cin, cout, kernel_size=3, stride=2, padding=1) layer;
w has one entry per output channel, each a per-input-channel 3x3 kernel
(a kernel is a list of 3 rows of 3 weights), b one bias per output channel. -/
def conv2d (w : List (List (List (List ℚ)))) (b : List ℚ) (x : Tensor3) :
    Tensor3 :=
  let H := (x.getD 0 []).length
  let W := ((x.getD 0 []).getD 0 []).length
  (List.range w.length).map (fun co =>
    (List.range (convOutDim H)).map (fun i =>
      (List.range (convOutDim W)).map (fun j =>
        b.getD co 0 +
        ((List.range (w.getD co []).length).map (fun ci =>
          ((List.range 3).map (fun ki =>
            ((List.range 3).map (fun kj =>
              (((w.getD co []).getD ci []).getD ki []).getD kj 0 *
              at2 (x.getD ci [])
                (((2 * i + ki : ℕ) : ℤ) - 1) (((2 * j + kj : ℕ) : ℤ) - 1)
              )).sum)).sum)).sum)))

/-- Elementwise relu on a [C,H,W] tensor. -/
def relu3 (x : Tensor3) : Tensor3 :=
  x.map (fun p => p.map (fun row => row.map relu))

/-- nn.Linear: one output per weight row, dot with the input plus the bias. -/
def linear (w : List (List ℚ)) (b : List ℚ) (v : List ℚ) : List ℚ :=
  List.zipWith (fun r bi => dot r v + bi) w b

/-- The parameters of Encoder (models.py lines 72-98): three conv layers
(in the source with 32, 64 and 128 output channels) and the final linear
projection of the flattened conv output to repr_dim. -/
structure EncoderParams where
  w1 : List (List (List (List ℚ)))
  b1 : List ℚ
  w2 : List (List (List (List ℚ)))
  b2 : List ℚ
  w3 : List (List (List (List ℚ)))
  b3 : List ℚ
  fcW : List (List ℚ)
  fcB : List ℚ

/-- Encoder.forward (models.py lines 95-98): conv_net (three conv+relu
stages), then fc = Flatten, Linear, ReLU. -/
def encoderForward (p : EncoderParams) (x : Tensor3) : List ℚ :=
  let h1 := relu3 (conv2d p.w1 p.b1 x)
  let h2 := relu3 (conv2d p.w2 p.b2 h1)
  let h3 := relu3 (conv2d p.w3 p.b3 h2)
  let flat := (h3.map (fun pl => pl.flatten)).flatten
  (linear p.fcW p.fcB flat).map relu

/-- The parameters of Predictor (models.py lines 101-112): Linear, ReLU,
Linear over the concatenation of latent and action. -/
structure PredictorParams where
  w1 : List (List ℚ)
  b1 : List ℚ
  w2 : List (List ℚ)
  b2 : List ℚ

/-- Predictor.forward (models.py lines 110-112): concatenate latent and
action along the feature axis, then mlp = Linear, ReLU, Linear; the final
layer is a plain linear layer. -/
def predictorForward (p : PredictorParams) (r a : List ℚ) : List ℚ :=
  let x := r ++ a
  let h := (linear p.w1 p.b1 x).map relu
  linear p.w2 p.b2 h

/-! ## Name resolution in the training entry points (main.py, train.py)

The training loops refer to attributes of the JEPAModel instance and to
module-level names; Python resolves each at the moment the statement runs
and raises NameError / AttributeError for one that does not exist.  The two
tables below are transcribed from the class definition in models.py and
from the import lists of the two scripts. -/

/-- One resolution a statement of the training code performs. -/
inductive PyRef where
  | globalName (s : String)
  | modelAttr (s : String)
  deriving Repr, DecidableEq

/-- Attributes an instance of JEPAModel (models.py lines 115-170) actually
has: fields set in __init__, the methods of the class, and the relevant
interface inherited from nn.Module. -/
def jepaModelAttrs : List String :=
  ["device", "repr_dim", "action_dim", "momentum",
   "online_encoder", "target_encoder", "predictor",
   "_update_target_encoder", "forward", "get_target_representations",
   "to", "parameters", "named_parameters", "train", "eval", "apply",
   "state_dict", "load_state_dict", "zero_grad", "modules", "children"]

/-- Module-level names in scope inside main.py when train_model runs:
its imports (note: torch.nn is never imported, there is no name nn) and its
own top-level definitions. -/
def mainGlobals : List String :=
  ["create_wall_dataloader", "ProbingEvaluator", "torch", "JEPAModel",
   "glob", "tqdm", "F", "get_device", "load_data", "load_model",
   "evaluate_model", "je_loss", "train_model", "device"]

/-- Module-level names in scope inside train.py when train runs. -/
def trainGlobals : List String :=
  ["torch", "F", "create_wall_dataloader", "JEPAModel", "tqdm",
   "vicreg_loss", "off_diagonal", "train"]

/-- Resolve the references a code path performs, in order, stopping at the
first name that does not exist - exactly where Python raises. -/
def resolveRefs (globals attrs : List String) : List PyRef → Except String Unit
  | [] => Except.ok ()
  | PyRef.globalName s :: rest =>
    if s ∈ globals then resolveRefs globals attrs rest
    else Except.error ("NameError: " ++ s)
  | PyRef.modelAttr s :: rest =>
    if s ∈ attrs then resolveRefs globals attrs rest
    else Except.error ("AttributeError: " ++ s)

/-- The references train_model in main.py (lines 95-154) performs in
execution order: build the loader and the model, move it, apply
init_weights (whose body evaluates the unbound name nn), build the optimizer
over model.encoder / model.predictor, then per batch: forward, target
encoder, loss, clipping over model.encoder, optimizer step, and
model.update_target_encoder(). -/
def trainModelRefs : List PyRef :=
  [PyRef.globalName "create_wall_dataloader",
   PyRef.globalName "JEPAModel",
   PyRef.modelAttr "to",
   PyRef.modelAttr "apply",
   PyRef.globalName "nn",
   PyRef.globalName "torch",
   PyRef.modelAttr "encoder",
   PyRef.modelAttr "predictor",
   PyRef.globalName "tqdm",
   PyRef.modelAttr "train",
   PyRef.modelAttr "forward",
   PyRef.modelAttr "target_encoder",
   PyRef.globalName "je_loss",
   PyRef.modelAttr "encoder",
   PyRef.modelAttr "predictor",
   PyRef.modelAttr "update_target_encoder"]

/-- The references train in train.py (lines 29-114) performs in execution
order: model construction, optimizer over model.parameters(), scheduler,
loader, model.train(), then per batch: model.encoder on current frames,
model.target_encoder on next frames, model.predictor, vicreg_loss,
clipping over model.parameters(), and model.update_target(momentum=0.996). -/
def trainRefs : List PyRef :=
  [PyRef.globalName "torch",
   PyRef.globalName "JEPAModel",
   PyRef.modelAttr "to",
   PyRef.modelAttr "parameters",
   PyRef.globalName "create_wall_dataloader",
   PyRef.modelAttr "train",
   PyRef.globalName "tqdm",
   PyRef.modelAttr "encoder",
   PyRef.modelAttr "target_encoder",
   PyRef.modelAttr "predictor",
   PyRef.globalName "vicreg_loss",
   PyRef.modelAttr "parameters",
   PyRef.modelAttr "update_target"]


/-- A one-parameter model state matching the spec's hand-computed EMA
example: online parameter 0.0, target parameter 2.0. -/
def emaExample : JEPAState :=
  { online := [freshParam 0], target := [freshParam 2], predictorP := [] }

/-! ## Proof-support views of the off-diagonal reshape trick -/

/-- The elements sitting at the start of each width-c chunk of a list (the
entries the reshape trick of off_diagonal drops); same fuel pattern as
chunksAux. -/
def strideHeadsAux (c : ℕ) : ℕ → List ℚ → List ℚ
  | 0, _ => []
  | _ + 1, [] => []
  | fuel + 1, a :: l => a :: strideHeadsAux c fuel ((a :: l).drop c)

/-- The diagonal of a matrix read from row index j downward: entry j of the
first row, entry j+1 of the next, and so on. -/
def diagFrom : ℕ → List (List ℚ) → List ℚ
  | _, [] => []
  | j, r :: rest => r.getD j 0 :: diagFrom (j + 1) rest

end JEPA

namespace JEPA

/-! ## Helper lemmas -/

theorem unroll_length {Z A : Type} (pred : Z → A → Z) (cur : Z)
    (acts : List A) : (unroll pred cur acts).length = acts.length := by
  induction acts generalizing cur with
  | nil => rfl
  | cons a rest ih => simp [unroll, ih]

theorem unroll_step {Z A : Type} (pred : Z → A → Z) (cur : Z) (acts : List A)
    (z0 : Z) (a0 : A) :
    ∀ t, t < acts.length →
      (cur :: unroll pred cur acts).getD (t + 1) z0
        = pred ((cur :: unroll pred cur acts).getD t z0) (acts.getD t a0) := by
  induction acts generalizing cur with
  | nil => intro t ht; simp at ht
  | cons a rest ih =>
    intro t ht
    cases t with
    | zero => simp [unroll]
    | succ t =>
      have h2 := ih (pred cur a) t (by simpa using ht)
      simpa [unroll] using h2

theorem getD_zipWith {α β γ : Type} (f : α → β → γ) (l1 : List α)
    (l2 : List β) (i : ℕ) (h1 : i < l1.length) (h2 : i < l2.length)
    (d1 : α) (d2 : β) (dg : γ) :
    (List.zipWith f l1 l2).getD i dg = f (l1.getD i d1) (l2.getD i d2) := by
  induction l1 generalizing l2 i with
  | nil => simp at h1
  | cons a l ih =>
    cases l2 with
    | nil => simp at h2
    | cons b l2 =>
      cases i with
      | zero => simp
      | succ i =>
        simp only [List.zipWith_cons_cons, List.getD_cons_succ]
        exact ih l2 i (by simpa using h1) (by simpa using h2)

theorem forall_map_of {α β : Type} (f : α → β) (P : β → Prop) (Q : α → Prop)
    (l : List α) (h : ∀ a, Q a → P (f a)) (hl : l.Forall Q) :
    (l.map f).Forall P := by
  induction l with
  | nil => trivial
  | cons a l ih =>
    rw [List.forall_cons] at hl
    rw [List.map_cons, List.forall_cons]
    exact ⟨h a hl.1, ih hl.2⟩

theorem forall_map {α β : Type} (f : α → β) (P : β → Prop) (l : List α)
    (h : ∀ a, P (f a)) : (l.map f).Forall P := by
  induction l with
  | nil => trivial
  | cons a l ih =>
    rw [List.map_cons, List.forall_cons]
    exact ⟨h a, ih⟩

theorem forall_mono {α : Type} (P Q : α → Prop) (l : List α)
    (h : ∀ a, P a → Q a) (hl : l.Forall P) : l.Forall Q := by
  induction l with
  | nil => trivial
  | cons a l ih =>
    rw [List.forall_cons] at hl ⊢
    exact ⟨h a hl.1, ih hl.2⟩

theorem forall_zipWith_right {α β : Type} (f : α → β → β) (P : β → Prop)
    (l1 : List α) (l2 : List β) (h : ∀ a b, P b → P (f a b))
    (hl : l2.Forall P) : (List.zipWith f l1 l2).Forall P := by
  induction l1 generalizing l2 with
  | nil => trivial
  | cons a l ih =>
    cases l2 with
    | nil => trivial
    | cons b l2 =>
      rw [List.forall_cons] at hl
      rw [List.zipWith_cons_cons, List.forall_cons]
      exact ⟨h a b hl.1, ih l2 hl.2⟩

/-! ## Claim C1: rollout structure of JEPAModel.forward -/

/-- C1.  For a states tensor with T time slices (T >= 1) and an actions
tensor with T-1 slices, JEPAModel.forward returns a sequence of exactly T
latent slices whose index 0 is the online encoder applied to states[:,0]
(the same enc that models the online encoder with its parameters), and whose
index t+1, for every t in 0..T-2, is the predictor applied to the previous
predicted latent (output index t, not a re-encoding of a ground-truth frame)
and actions[:,t]. -/
theorem c1_rollout_structure {Obs Z A : Type} (enc : Obs → Z)
    (pred : Z → A → Z) (s0 : Obs) (rest : List Obs) (actions : List A)
    (z0 : Z) (a0 : A) (h : actions.length = rest.length) :
    ∃ out, JEPAforward enc pred (s0 :: rest) actions = some out
      ∧ out.length = (s0 :: rest).length
      ∧ out.getD 0 z0 = enc s0
      ∧ ∀ t, t < actions.length →
          out.getD (t + 1) z0 = pred (out.getD t z0) (actions.getD t a0) := by
  have hlen : (s0 :: rest).length - 1 = actions.length := by simp [h]
  refine ⟨enc s0 :: unroll pred (enc s0) actions, ?_, ?_, ?_, ?_⟩
  · show (if (s0 :: rest).length - 1 ≤ actions.length then
        some (enc s0 ::
          unroll pred (enc s0) (actions.take ((s0 :: rest).length - 1)))
      else none) = some (enc s0 :: unroll pred (enc s0) actions)
    rw [hlen, List.take_length, if_pos le_rfl]
  · simp [unroll_length, h]
  · simp
  · exact unroll_step pred (enc s0) actions z0 a0

/-- C1 witness: a concrete two-frame trajectory with one action. -/
theorem c1_witness :
    (([5] : List ℕ).length = ([()] : List Unit).length)
    ∧ (∃ out, JEPAforward (fun _ => (0 : ℕ)) (fun z a => z + a)
          [(), ()] [5] = some out
        ∧ out.length = ([(), ()] : List Unit).length
        ∧ out.getD 0 0 = 0
        ∧ ∀ t, t < ([5] : List ℕ).length →
            out.getD (t + 1) 0 = out.getD t 0 + ([5] : List ℕ).getD t 0) :=
  ⟨rfl, c1_rollout_structure (fun _ => 0) (fun z a => z + a) () [()] [5] 0 0 rfl⟩

/-! ## Claim C2: the construction-time sync does not copy the online
parameters -/

/-- C2 (code bug).  The construction-time call
_update_target_encoder(tau=1.0) computes target*1.0 + online*0.0, the
identity, so a TargetEncoder parameter keeps its own independent random
initialization: constructing with online data 0 and target data 2 leaves the
target at 2 while the online parameter is 0 - the two encoders are NOT
elementwise equal after construction, contradicting the code's own comments
(and the spec); a copy would need tau = 0. -/
theorem c2_construction_sync_is_identity :
    (mkJEPA [0] [2] [0]).target.map Param.data = [2]
    ∧ (mkJEPA [0] [2] [0]).online.map Param.data = [0]
    ∧ (2 : ℚ) ≠ 0 := by
  refine ⟨?_, ?_, by norm_num⟩ <;>
    simp [mkJEPA, updateTarget, freshParam]

/-! ## Claim C3: the EMA update rule -/

/-- C3.  One invocation of _update_target_encoder(tau) replaces, for every
parameter pair taken in matching order, the target parameter data by exactly
tau*target + (1-tau)*online, leaves the target parameter's flag and grad
slot alone, and mutates nothing outside the TargetEncoder group. -/
theorem c3_ema_update_rule (s : JEPAState) (tau : ℚ) (i : ℕ) (d : Param)
    (hlen : s.online.length = s.target.length) (hi : i < s.target.length) :
    (((updateTarget tau s).target.getD i d).data
        = tau * (s.target.getD i d).data
          + (1 - tau) * (s.online.getD i d).data)
    ∧ (((updateTarget tau s).target.getD i d).requiresGrad
        = (s.target.getD i d).requiresGrad)
    ∧ (((updateTarget tau s).target.getD i d).grad = (s.target.getD i d).grad)
    ∧ (updateTarget tau s).online = s.online
    ∧ (updateTarget tau s).predictorP = s.predictorP
    ∧ (updateTarget tau s).target.length = s.target.length := by
  have hzip := getD_zipWith
    (fun po pt => { pt with data := pt.data * tau + po.data * (1 - tau) })
    s.online s.target i (by rw [hlen]; exact hi) hi d d d
  unfold updateTarget
  refine ⟨?_, ?_, ?_, rfl, rfl, ?_⟩
  · simp only [hzip]; ring
  · simp only [hzip]
  · simp only [hzip]
  · simp [hlen]

/-- C3 witness: the spec's hand-computed example, old target 2.0, online
0.0, tau 0.9, giving new target 1.8 = 9/5. -/
theorem c3_witness :
    (emaExample.online.length = emaExample.target.length)
    ∧ (0 < emaExample.target.length)
    ∧ ((((updateTarget (9 / 10) emaExample).target.getD 0 (freshParam 0)).data
          = (9 / 10) * ((emaExample.target.getD 0 (freshParam 0)).data)
            + (1 - 9 / 10) * ((emaExample.online.getD 0 (freshParam 0)).data))
        ∧ (((updateTarget (9 / 10) emaExample).target.getD 0
              (freshParam 0)).requiresGrad
            = ((emaExample.target.getD 0 (freshParam 0)).requiresGrad))
        ∧ (((updateTarget (9 / 10) emaExample).target.getD 0
              (freshParam 0)).grad
            = ((emaExample.target.getD 0 (freshParam 0)).grad))
        ∧ (updateTarget (9 / 10) emaExample).online = emaExample.online
        ∧ (updateTarget (9 / 10) emaExample).predictorP
            = emaExample.predictorP
        ∧ (updateTarget (9 / 10) emaExample).target.length
            = emaExample.target.length)
    ∧ ((updateTarget (9 / 10) emaExample).target.getD 0 (freshParam 0)).data
        = 9 / 5 :=
  ⟨rfl, by simp [emaExample],
    c3_ema_update_rule emaExample (9 / 10) 0 (freshParam 0) rfl
      (by simp [emaExample]),
    by norm_num [updateTarget, emaExample, freshParam]⟩

/-! ## Claim C9: the training loops crash on missing names -/

/-- C9 (code bug).  Neither training entry point can complete the claimed
fetch/forward/loss/backward/clip/step/sync sequence even once: train_model
in main.py evaluates the unbound global name nn inside init_weights (and
would next hit model.encoder and model.update_target_encoder, which
JEPAModel does not define), and train in train.py dereferences
model.encoder, which JEPAModel does not define (its field is
online_encoder), before reaching its loss. -/
theorem c9_training_loops_crash :
    resolveRefs mainGlobals jepaModelAttrs trainModelRefs
      = Except.error "NameError: nn"
    ∧ resolveRefs trainGlobals jepaModelAttrs trainRefs
      = Except.error "AttributeError: encoder" :=
  ⟨rfl, rfl⟩

/-! ## Claim C4: TargetEncoder parameters never require grad and never
receive one -/

/-- C4.  From construction onward, whatever sequence of model operations
runs, every TargetEncoder parameter still has requires_grad = false with an
empty grad slot; and a backward pass at any such point leaves every
TargetEncoder grad slot empty while populating a gradient for every online
Encoder and Predictor parameter. -/
theorem c4_target_never_gradient (oInit tInit pInit : List ℚ)
    (ops : List ModelOp) :
    ((runOps ops (mkJEPA oInit tInit pInit)).target.Forall
        (fun p => p.requiresGrad = false ∧ p.grad = none))
    ∧ ((applyOp ModelOp.backwardOp
          (runOps ops (mkJEPA oInit tInit pInit))).target.Forall
        (fun p => p.grad = none))
    ∧ ((applyOp ModelOp.backwardOp
          (runOps ops (mkJEPA oInit tInit pInit))).online.Forall
        (fun p => p.grad.isSome = true))
    ∧ ((applyOp ModelOp.backwardOp
          (runOps ops (mkJEPA oInit tInit pInit))).predictorP.Forall
        (fun p => p.grad.isSome = true)) := by
  -- the preserved invariant: target flags off with empty grads, online and
  -- predictor flags on
  let I : JEPAState → Prop := fun s =>
    (s.target.Forall (fun p => p.requiresGrad = false ∧ p.grad = none))
    ∧ (s.online.Forall (fun p => p.requiresGrad = true))
    ∧ (s.predictorP.Forall (fun p => p.requiresGrad = true))
  have hinit : I (mkJEPA oInit tInit pInit) := by
    refine ⟨?_, ?_, ?_⟩
    · refine forall_map_of _ _ (fun p => p.grad = none) _
        (fun a ha => ⟨rfl, ha⟩) ?_
      refine forall_zipWith_right _ _ _ _ (fun a b hb => hb) ?_
      exact forall_map _ _ _ (fun a => rfl)
    · exact forall_map _ _ _ (fun a => rfl)
    · exact forall_map _ _ _ (fun a => rfl)
  have hstep : ∀ op s, I s → I (applyOp op s) := by
    intro op s hs
    cases op with
    | updateTargetOp tau =>
      refine ⟨?_, hs.2.1, hs.2.2⟩
      exact forall_zipWith_right _ _ _ _ (fun a b hb => ⟨hb.1, hb.2⟩) hs.1
    | forwardOp => exact hs
    | targetReprsOp => exact hs
    | backwardOp =>
      refine ⟨hs.1, ?_, ?_⟩
      · exact forall_map_of _ _ _ _
          (fun a ha => by unfold setGradIfTracked; rw [ha]; simp) hs.2.1
      · exact forall_map_of _ _ _ _
          (fun a ha => by unfold setGradIfTracked; rw [ha]; simp) hs.2.2
    | optStepOp lr =>
      refine ⟨hs.1, ?_, ?_⟩
      · exact forall_map_of _ _ _ _
          (fun a ha => by unfold sgdWrite; cases a.grad <;> simpa) hs.2.1
      · exact forall_map_of _ _ _ _
          (fun a ha => by unfold sgdWrite; cases a.grad <;> simpa) hs.2.2
    | zeroGradOp =>
      refine ⟨hs.1, ?_, ?_⟩
      · exact forall_map_of _ _ _ _ (fun a ha => ha) hs.2.1
      · exact forall_map_of _ _ _ _ (fun a ha => ha) hs.2.2
  have hrun : ∀ (l : List ModelOp) (s : JEPAState), I s → I (runOps l s) := by
    intro l
    induction l with
    | nil => intro s hs; exact hs
    | cons op rest ih =>
      intro s hs
      exact ih (applyOp op s) (hstep op s hs)
  have hfin := hrun ops _ hinit
  have hback := hstep ModelOp.backwardOp _ hfin
  refine ⟨hfin.1, ?_, ?_, ?_⟩
  · exact forall_mono _ _ _ (fun a ha => ha.2) hback.1
  · exact forall_map_of _ _ _ _
      (fun a ha => by unfold setGradIfTracked; rw [ha]; simp) hfin.2.1
  · exact forall_map_of _ _ _ _
      (fun a ha => by unfold setGradIfTracked; rw [ha]; simp) hfin.2.2

end JEPA

namespace JEPA

/-! ## Claim C5: the contrastive loss equals the spec formula -/

theorem fmean_two_mul (l : List ℚ) :
    fmean (l.map (fun c => 2 * (1 - c)))
      = Option.map (fun m => 2 * m) (fmean (l.map (fun c => 1 - c))) := by
  have hs : (l.map (fun c => 2 * (1 - c))).sum
      = 2 * (l.map (fun c => 1 - c)).sum := by
    simpa using List.sum_map_mul_left l (fun c => 1 - c) 2
  unfold fmean
  rcases eq_or_ne l [] with rfl | hne
  · simp
  · rw [if_neg (by simp [hne]), if_neg (by simp [hne])]
    simp [hs, mul_div_assoc]

theorem bind_map_two {β : Type} (x : Option ℚ) (k : ℚ → Option β) :
    (Option.map (fun m => 2 * m) x).bind k = x.bind (fun m => k (2 * m)) := by
  cases x <;> rfl

/-- C5.  For every pair of [B,T,D] tensors, je_loss equals the spec formula:
after L2-normalizing both along the feature axis, the mean of
2 * (1 - per-timestep cosine similarity) plus 0.1 * (|1 - mean std of the
predicted vectors across the time axis| + |1 - mean std of the target
vectors across the time axis|). -/
theorem c5_je_loss_formula (sq : ℚ → ℚ)
    (predictions targets : List (List (List ℚ))) :
    jeLoss sq predictions targets = jeSpecLoss sq predictions targets := by
  unfold jeLoss jeSpecLoss
  rw [fmean_two_mul, bind_map_two]

/-! ## Claim C7: both losses are symmetric in their two arguments -/

theorem dot_comm (a b : List ℚ) : dot a b = dot b a := by
  unfold dot
  rw [List.zipWith_comm_of_comm (fun x y => x * y) mul_comm]

theorem cos_swap (Pn Tn : List (List (List ℚ))) :
    (List.zipWith (fun pe te => List.zipWith dot pe te) Pn Tn).flatten
      = (List.zipWith (fun pe te => List.zipWith dot pe te) Tn Pn).flatten := by
  congr 1
  apply List.zipWith_comm_of_comm
  intro x y
  exact List.zipWith_comm_of_comm dot dot_comm x y

theorem je_sym_core (c a b : Option ℚ) :
    c.bind (fun base => a.bind (fun ps => b.bind (fun ts =>
      some (2 * base + (1 / 10) * (|1 - ps| + |1 - ts|)))))
    = c.bind (fun base => b.bind (fun ts => a.bind (fun ps =>
      some (2 * base + (1 / 10) * (|1 - ts| + |1 - ps|))))) := by
  cases c with
  | none => rfl
  | some s =>
    cases a with
    | none => cases b <;> rfl
    | some ps =>
      cases b with
      | none => rfl
      | some ts =>
        simp only [Option.some_bind]
        exact congrArg some (by ring)

theorem mse_comm (x y : List (List ℚ)) : mseLoss x y = mseLoss y x := by
  unfold mseLoss
  congr 2
  apply List.zipWith_comm_of_comm
  intro r s
  apply List.zipWith_comm_of_comm
  intro u v
  ring

theorem vr_sym_core (sim : Option ℚ) (A B : Option (List ℚ))
    (C D : Option (List (List ℚ))) :
    sim.bind (fun s => A.bind (fun ha => B.bind (fun hb =>
      (fmean ha).bind (fun va => (fmean hb).bind (fun vb =>
      C.bind (fun xc => D.bind (fun yc =>
      (covMatrix xc).bind (fun cx => (covMatrix yc).bind (fun cy =>
      some (s + 25 * (va + vb)
        + 25 * (sumSq (offDiagonal cx) + sumSq (offDiagonal cy))))))))))))
    = sim.bind (fun s => B.bind (fun hb => A.bind (fun ha =>
      (fmean hb).bind (fun vb => (fmean ha).bind (fun va =>
      D.bind (fun yc => C.bind (fun xc =>
      (covMatrix yc).bind (fun cy => (covMatrix xc).bind (fun cx =>
      some (s + 25 * (vb + va)
        + 25 * (sumSq (offDiagonal cy) + sumSq (offDiagonal cx))))))))))))
    := by
  cases sim with
  | none => rfl
  | some s =>
    cases A with
    | none =>
      cases B with
      | none => rfl
      | some hb =>
        simp only [Option.some_bind, Option.none_bind]
    | some ha =>
      cases B with
      | none => rfl
      | some hb =>
        simp only [Option.some_bind]
        cases hfa : fmean ha with
        | none =>
          simp only [Option.none_bind]
          cases fmean hb <;> rfl
        | some va =>
          cases hfb : fmean hb with
          | none => rfl
          | some vb =>
            simp only [Option.some_bind]
            cases C with
            | none =>
              cases D with
              | none => rfl
              | some yc =>
                simp only [Option.some_bind, Option.none_bind]
            | some xc =>
              cases D with
              | none => rfl
              | some yc =>
                simp only [Option.some_bind]
                cases hcx : covMatrix xc with
                | none =>
                  simp only [Option.none_bind]
                  cases covMatrix yc <;> rfl
                | some cx =>
                  cases hcy : covMatrix yc with
                  | none => rfl
                  | some cy =>
                    simp only [Option.some_bind]
                    exact congrArg some (by ring)

/-- C7.  Swapping the predicted and target arguments leaves both loss values
unchanged: je_loss (after its simultaneous normalization of both inputs) and
vicreg_loss (whose invariance term is symmetric and whose variance and
covariance terms are computed per side and summed) are symmetric. -/
theorem c7_loss_symmetry (sq : ℚ → ℚ) (P T : List (List (List ℚ)))
    (x y : List (List ℚ)) :
    jeLoss sq P T = jeLoss sq T P ∧ vicregLoss sq x y = vicregLoss sq y x := by
  constructor
  · unfold jeLoss
    rw [cos_swap]
    exact je_sym_core _ _ _
  · unfold vicregLoss
    rw [mse_comm]
    exact vr_sym_core _ _ _ _ _

end JEPA

namespace JEPA

/-! ## Claim C8: degenerate batch/time sizes are not guarded -/

theorem mapM_cons_none {α β : Type} (f : α → Option β) (a : α) (l : List α)
    (h : f a = none) : (a :: l).mapM f = none := by
  rw [List.mapM_cons, h]
  rfl

theorem varU_singleton (a : ℚ) : varU [a] = none := by
  simp [varU, fmean, fdiv]

theorem transposeL_single_cons (a : ℚ) (rest : List ℚ) :
    transposeL [a :: rest]
      = [a] :: (List.range rest.length).map
          (fun j => [(a :: rest).getD (j + 1) 0]) := by
  simp [transposeL, column, List.range_succ_eq_map]

theorem stdHinges_single_row (sq : ℚ → ℚ) (a : ℚ) (rest : List ℚ) :
    stdHinges sq [a :: rest] = none := by
  unfold stdHinges
  rw [transposeL_single_cons,
    mapM_cons_none _ _ _ (by simp [varU_singleton])]
  rfl

theorem vicreg_single_row (sq : ℚ → ℚ) (r s : List ℚ) :
    vicregLoss sq [r] [s] = none := by
  cases r with
  | nil =>
    have hmse : mseLoss [([] : List ℚ)] [s] = none := by
      simp [mseLoss, fmean]
    unfold vicregLoss
    rw [hmse]
    rfl
  | cons a rest =>
    unfold vicregLoss
    cases hm : mseLoss [a :: rest] [s] with
    | none => rfl
    | some v => simp [stdHinges_single_row]

theorem stdMean_single_time (sq : ℚ → ℚ) (v : List ℚ) :
    stdMean sq [[v]] = none := by
  unfold stdMean
  cases v with
  | nil =>
    have ht : transposeL [([] : List ℚ)] = [] := by simp [transposeL]
    have hf : (List.mapM (fun ex => (transposeL ex).mapM
        (fun col => (varU col).map sq)) [[([] : List ℚ)]]) = some [[]] := by
      rw [List.mapM_cons, ht]
      rfl
    rw [hf]
    rfl
  | cons a rest =>
    have hinner : (transposeL [a :: rest]).mapM
        (fun col => (varU col).map sq) = none := by
      rw [transposeL_single_cons]
      exact mapM_cons_none _ _ _ (by simp [varU_singleton])
    rw [mapM_cons_none (fun ex => (transposeL ex).mapM
        (fun col => (varU col).map sq)) [a :: rest] [] hinner]
    rfl

theorem je_single_time (sq : ℚ → ℚ) (p t : List ℚ) :
    jeLoss sq [[p]] [[t]] = none := by
  unfold jeLoss
  simp [stdMean_single_time, fmean]

/-- C8 (amended).  Neither loss checks for a degenerate batch/time size:
a batch of one row fed to vicreg_loss divides by batch-1 = 0 inside the
unbiased variance (and covariance), and a single-timestep pair fed to
je_loss divides by T-1 = 0 inside torch.std, so the losses silently produce
a non-finite (NaN/Inf) value, modelled as none, for every such input; there
is no precondition error and no special case. -/
theorem c8_degenerate_sizes_nonfinite (sq : ℚ → ℚ) (r s p t : List ℚ) :
    vicregLoss sq [r] [s] = none ∧ jeLoss sq [[p]] [[t]] = none :=
  ⟨vicreg_single_row sq r s, je_single_time sq p t⟩

/-- C8 counterexample to the claim as stated: at the concrete degenerate
inputs batch [[1,2]] vs [[3,4]] (batch size 1) and the single-timestep pair
[[[1]]] vs [[[1]]], the losses return the non-finite value (none) instead of
detecting the degenerate size, rejecting it, or special-casing it. -/
theorem c8_counterexample :
    vicregLoss ratSqrt [[1, 2]] [[3, 4]] = none
    ∧ jeLoss ratSqrt [[[1]]] [[[1]]] = none :=
  ⟨vicreg_single_row ratSqrt [1, 2] [3, 4], je_single_time ratSqrt [1] [1]⟩

end JEPA

namespace JEPA

/-! ## Claim C6: the off-diagonal reshape trick and the vicreg formula -/

theorem sumSq_cons (a : ℚ) (l : List ℚ) :
    sumSq (a :: l) = a * a + sumSq l := by
  simp [sumSq]

theorem sumSq_append (l1 l2 : List ℚ) :
    sumSq (l1 ++ l2) = sumSq l1 + sumSq l2 := by
  simp [sumSq]

theorem chunksAux_fuel (c : ℕ) (hc : 1 ≤ c) :
    ∀ (f1 : ℕ) (l : List ℚ) (f2 : ℕ), l.length ≤ f1 → l.length ≤ f2 →
      chunksAux c f1 l = chunksAux c f2 l := by
  intro f1
  induction f1 with
  | zero =>
    intro l f2 h1 _
    have hl : l = [] := List.length_eq_zero.mp (Nat.le_zero.mp h1)
    subst hl
    cases f2 <;> rfl
  | succ f ih =>
    intro l f2 h1 h2
    cases l with
    | nil => cases f2 <;> rfl
    | cons a t =>
      cases f2 with
      | zero => simp at h2
      | succ f2 =>
        have hl1 : t.length + 1 ≤ f + 1 := by simpa using h1
        have hl2 : t.length + 1 ≤ f2 + 1 := by simpa using h2
        have hd : ((a :: t).drop c).length ≤ f := by
          rw [List.length_drop]
          simp only [List.length_cons]
          omega
        have hd2 : ((a :: t).drop c).length ≤ f2 := by
          rw [List.length_drop]
          simp only [List.length_cons]
          omega
        unfold chunksAux
        exact congrArg (List.cons _) (ih _ _ hd hd2)

theorem chunks_ne_nil (c : ℕ) (hc : 1 ≤ c) (l : List ℚ) (hl : l ≠ []) :
    chunks c l = l.take c :: chunks c (l.drop c) := by
  obtain ⟨a, t, rfl⟩ := List.exists_cons_of_ne_nil hl
  show chunksAux c ((a :: t).length) (a :: t) = _
  have h1 : (a :: t).length = t.length + 1 := rfl
  rw [h1]
  unfold chunksAux
  unfold chunks
  congr 1
  apply chunksAux_fuel c hc
  · rw [List.length_drop]
    simp only [List.length_cons]
    omega
  · exact le_rfl

theorem trick_stride_split (c : ℕ) (hc : 1 ≤ c) :
    ∀ (fuel : ℕ) (l : List ℚ), l.length ≤ fuel →
      sumSq (((chunksAux c fuel l).map (fun r => r.drop 1)).flatten)
        + sumSq (strideHeadsAux c fuel l) = sumSq l := by
  intro fuel
  induction fuel with
  | zero =>
    intro l h
    have hl : l = [] := List.length_eq_zero.mp (Nat.le_zero.mp h)
    subst hl
    simp [chunksAux, strideHeadsAux, sumSq]
  | succ f ih =>
    intro l h
    cases l with
    | nil => simp [chunksAux, strideHeadsAux, sumSq]
    | cons a t =>
      obtain ⟨c2, rfl⟩ : ∃ c2, c = c2 + 1 := ⟨c - 1, by omega⟩
      have hih := ih ((a :: t).drop (c2 + 1)) (by
        rw [List.length_drop]
        simp only [List.length_cons]
        simp only [List.length_cons] at h
        omega)
      unfold chunksAux strideHeadsAux
      rw [List.map_cons, List.flatten_cons, sumSq_append, sumSq_cons]
      rw [List.drop_succ_cons] at hih
      rw [List.take_succ_cons]
      simp only [List.drop_succ_cons, List.drop_zero]
      have hsplit : sumSq (t.take c2) + sumSq (t.drop c2) = sumSq t := by
        conv_rhs => rw [← List.take_append_drop c2 t]
        rw [sumSq_append]
      rw [sumSq_cons]
      linarith [hih, hsplit]

theorem strideHeads_diag (n : ℕ) :
    ∀ (rows : List (List ℚ)) (j fuel : ℕ),
      (∀ r ∈ rows, r.length = n) → rows.length + j ≤ n →
      ((rows.flatten).drop j).length ≤ fuel →
      strideHeadsAux (n + 1) fuel ((rows.flatten).drop j) = diagFrom j rows := by
  intro rows
  induction rows with
  | nil =>
    intro j fuel _ _ _
    simp only [List.flatten_nil, List.drop_nil]
    cases fuel <;> rfl
  | cons r rest ih =>
    intro j fuel hlen hjn hfuel
    have hrn : r.length = n := hlen r (by simp)
    simp only [List.length_cons] at hjn
    have hj : j < n := by omega
    have hjr : j < r.length := by omega
    simp only [List.flatten_cons] at hfuel ⊢
    have hlenL : j < (r ++ rest.flatten).length := by
      rw [List.length_append, hrn]
      omega
    cases fuel with
    | zero =>
      exfalso
      rw [List.length_drop] at hfuel
      rw [List.length_append] at hlenL
      rw [List.length_append] at hfuel
      omega
    | succ f =>
      rw [List.drop_eq_getElem_cons hlenL]
      unfold strideHeadsAux
      unfold diagFrom
      congr 1
      · rw [List.getElem_append_left hjr]
        exact (List.getD_eq_getElem r 0 hjr).symm
      · rw [List.drop_succ_cons, List.drop_drop]
        have harith : j + 1 + n = r.length + (j + 1) := by omega
        rw [harith, List.drop_append]
        apply ih (j + 1) f (fun s hs => hlen s (by simp [hs])) (by omega)
        rw [List.length_drop] at hfuel ⊢
        rw [List.length_append, hrn] at hfuel
        omega

theorem sumSqExcept_add (r : List ℚ) :
    ∀ j, j < r.length →
      sumSqExcept j r + (r.getD j 0) * (r.getD j 0) = sumSq r := by
  induction r with
  | nil => intro j h; simp at h
  | cons a t ih =>
    intro j hj
    cases j with
    | zero =>
      simp only [sumSqExcept, List.getD_cons_zero, sumSq_cons]
      ring
    | succ j =>
      simp only [sumSqExcept, List.getD_cons_succ, sumSq_cons]
      have hjt : j < t.length := by
        simp only [List.length_cons] at hj
        omega
      have := ih j hjt
      linarith

theorem offDiagAux_diag (n : ℕ) :
    ∀ (rows : List (List ℚ)) (j : ℕ),
      (∀ r ∈ rows, r.length = n) → rows.length + j ≤ n →
      offDiagAux j rows + sumSq (diagFrom j rows) = sumSq rows.flatten := by
  intro rows
  induction rows with
  | nil => intro j _ _; simp [offDiagAux, diagFrom, sumSq]
  | cons r rest ih =>
    intro j hlen hjn
    have hrn : r.length = n := hlen r (by simp)
    simp only [List.length_cons] at hjn
    have hjr : j < r.length := by omega
    unfold offDiagAux diagFrom
    rw [List.flatten_cons, sumSq_append, sumSq_cons]
    have h1 := sumSqExcept_add r j hjr
    have h2 := ih (j + 1) (fun s hs => hlen s (by simp [hs])) (by omega)
    linarith

theorem dropLast_drop_comm (c : ℕ) (l : List ℚ) :
    l.dropLast.drop c = (l.drop c).dropLast := by
  rw [List.dropLast_eq_take, List.dropLast_eq_take, List.drop_take,
    List.length_drop]
  congr 1
  omega

theorem trick_dropLast (c : ℕ) (hc : 2 ≤ c) :
    ∀ (q : ℕ) (l : List ℚ), l.length = q * c + 1 →
      ((chunks c l.dropLast).map (fun r => r.drop 1)).flatten
        = ((chunks c l).map (fun r => r.drop 1)).flatten := by
  intro q
  induction q with
  | zero =>
    intro l h
    simp only [Nat.zero_mul, Nat.zero_add] at h
    obtain ⟨a, rfl⟩ := List.length_eq_one.mp h
    rw [chunks_ne_nil c (by omega) [a] (by simp)]
    have hdrop : ([a] : List ℚ).drop c = [] := by
      apply List.drop_eq_nil_of_le
      simp
      omega
    rw [hdrop]
    simp [chunks, chunksAux, List.take_of_length_le (by simp; omega : ([a] : List ℚ).length ≤ c)]
  | succ q ih =>
    intro l h
    have hlpos : 2 ≤ l.length := by
      rw [h]
      have : 1 * c ≤ (q + 1) * c := by
        apply Nat.mul_le_mul_right
        omega
      omega
    have hna : l ≠ [] := by
      intro e
      rw [e] at hlpos
      simp at hlpos
    have hnd : l.dropLast ≠ [] := by
      intro e
      have he := congrArg List.length e
      rw [List.length_dropLast] at he
      simp at he
      omega
    rw [chunks_ne_nil c (by omega) _ hnd, chunks_ne_nil c (by omega) l hna]
    simp only [List.map_cons, List.flatten_cons]
    congr 1
    · congr 1
      rw [List.dropLast_eq_take, List.take_take]
      congr 1
      have hcle : c ≤ l.length - 1 := by
        rw [h]
        have : 1 * c ≤ (q + 1) * c := by
          apply Nat.mul_le_mul_right
          omega
        omega
      omega
    · rw [dropLast_drop_comm]
      apply ih
      rw [List.length_drop, h]
      have : (q + 1) * c = q * c + c := by ring
      omega

theorem flatten_length_square (m : List (List ℚ))
    (h : ∀ r ∈ m, r.length = m.length) :
    m.flatten.length = m.length * m.length := by
  rw [List.length_flatten]
  have hrep : m.map List.length = List.replicate m.length m.length := by
    rw [List.eq_replicate_iff]
    constructor
    · simp
    · intro b hb
      obtain ⟨r, hr, rfl⟩ := List.mem_map.mp hb
      exact h r hr
  rw [hrep, List.sum_replicate, smul_eq_mul]

/-- The reshape trick of off_diagonal extracts exactly the off-diagonal
entries: its sum of squares equals the double sum over i and j different
from i, for every square matrix. -/
theorem offDiagonal_sumSq (m : List (List ℚ))
    (hsq : ∀ r ∈ m, r.length = m.length) :
    sumSq (offDiagonal m) = offDiagSumSq m := by
  rcases eq_or_ne m [] with rfl | hne
  · simp [offDiagonal, chunks, chunksAux, offDiagSumSq, offDiagAux, sumSq]
  · have hn : 1 ≤ m.length := List.length_pos.mpr hne
    obtain ⟨k, hk⟩ : ∃ k, m.length = k + 1 := ⟨m.length - 1, by omega⟩
    have hflen : m.flatten.length = m.length * m.length :=
      flatten_length_square m hsq
    have hq : m.flatten.length = k * (m.length + 1) + 1 := by
      rw [hflen, hk]
      ring
    have hL4 := trick_dropLast (m.length + 1) (by omega) k m.flatten hq
    have hL1 := trick_stride_split (m.length + 1) (by omega)
      m.flatten.length m.flatten le_rfl
    have hL2 := strideHeads_diag m.length m 0 m.flatten.length hsq
      (by omega) (by simp)
    rw [List.drop_zero] at hL2
    rw [hL2] at hL1
    have hL3 := offDiagAux_diag m.length m 0 hsq (by omega)
    unfold offDiagonal offDiagSumSq
    rw [hL4]
    show sumSq (((chunksAux (m.length + 1) m.flatten.length m.flatten).map
      (fun r => r.drop 1)).flatten) = offDiagAux 0 m
    linarith [hL1, hL3]

end JEPA

namespace JEPA

theorem obind_congr {α β : Type} (a : Option α) (f g : α → Option β)
    (h : ∀ x, a = some x → f x = g x) : a.bind f = a.bind g := by
  cases ha : a with
  | none => rfl
  | some x =>
    simp only [Option.some_bind]
    exact h x ha

theorem cov_square {xc cx : List (List ℚ)} (h : covMatrix xc = some cx) :
    ∀ r ∈ cx, r.length = cx.length := by
  unfold covMatrix at h
  by_cases hc : ((xc.length - 1 : ℕ) : ℚ) = 0
  · rw [if_pos hc] at h
    exact absurd h (by simp)
  · rw [if_neg hc] at h
    have hcx := (Option.some.inj h).symm
    subst hcx
    intro r hr
    obtain ⟨ci, _, rfl⟩ := List.mem_map.mp hr
    simp

/-- C6 (amended).  vicreg_loss equals the claimed
invariance + 25*variance + 25*covariance formula once the variance term is
read with the implementation's epsilon: the hinge is
relu(1 - sqrt(var + 0.0001)), not relu(1 - sqrt(var)); the covariance term
is literally the sum of squared off-diagonal entries (double sum over
i and j different from i) of each side's covariance matrix of the
mean-centered batch divided by batch-1, and the invariance term is the mean
squared error. -/
theorem c6_vicreg_formula_eps (sq : ℚ → ℚ) (x y : List (List ℚ)) :
    vicregLoss sq x y = vicregSpecEps sq x y := by
  unfold vicregLoss vicregSpecEps
  apply obind_congr
  intro sim _
  apply obind_congr
  intro hx _
  apply obind_congr
  intro hy _
  apply obind_congr
  intro vx _
  apply obind_congr
  intro vy _
  apply obind_congr
  intro xc _
  apply obind_congr
  intro yc _
  apply obind_congr
  intro cx hcx
  apply obind_congr
  intro cy hcy
  rw [offDiagonal_sumSq cx (cov_square hcx),
    offDiagonal_sumSq cy (cov_square hcy)]

theorem ratSqrt_zero : ratSqrt 0 = 0 := by
  norm_num [ratSqrt]

theorem ratSqrt_eps : ratSqrt (1 / 10000) = 1 / 100 := by
  unfold ratSqrt
  have h1 : ((1 : ℚ) / 10000).num = 1 := by norm_num
  have h2 : ((1 : ℚ) / 10000).den = 10000 := by norm_num
  have h3 : Nat.sqrt 10000 = 100 := by
    have h4 : (10000 : ℕ) = 100 * 100 := by norm_num
    rw [h4, Nat.sqrt_eq]
  rw [h1, h2, h3]
  norm_num

end JEPA

namespace JEPA

theorem transposeL_zeros2 :
    transposeL [[0, 0], [0, 0]] = [[(0 : ℚ), 0], [0, 0]] := by
  norm_num [transposeL, column, List.range_succ]

theorem varU_zeros2 : varU [(0 : ℚ), 0] = some 0 := by
  norm_num [varU, fmean, fdiv, sumSq]

theorem mseLoss_zeros2 :
    mseLoss [[0, 0], [0, 0]] [[(0 : ℚ), 0], [0, 0]] = some 0 := by
  norm_num [mseLoss, fmean]

theorem stdHinges_zeros2 :
    stdHinges ratSqrt [[0, 0], [0, 0]] = some [99 / 100, 99 / 100] := by
  unfold stdHinges
  rw [transposeL_zeros2]
  rw [List.mapM_cons, List.mapM_cons, List.mapM_nil, varU_zeros2]
  norm_num [relu, ratSqrt_eps]

theorem stdHingesClaim_zeros2 :
    stdHingesClaim ratSqrt [[0, 0], [0, 0]] = some [1, 1] := by
  unfold stdHingesClaim
  rw [transposeL_zeros2]
  rw [List.mapM_cons, List.mapM_cons, List.mapM_nil, varU_zeros2]
  norm_num [relu, ratSqrt_zero]

theorem centerCols_zeros2 :
    centerCols [[0, 0], [0, 0]] = some [[(0 : ℚ), 0], [0, 0]] := by
  unfold centerCols
  rw [transposeL_zeros2]
  rw [List.mapM_cons, List.mapM_cons, List.mapM_nil]
  norm_num [fmean]

theorem covMatrix_zeros2 :
    covMatrix [[0, 0], [0, 0]] = some [[(0 : ℚ), 0], [0, 0]] := by
  unfold covMatrix
  rw [if_neg (by norm_num)]
  rw [transposeL_zeros2]
  norm_num [dot]

theorem offDiagonal_zeros2 :
    sumSq (offDiagonal [[(0 : ℚ), 0], [0, 0]]) = 0 := by
  norm_num [offDiagonal, chunks, chunksAux, sumSq]

theorem offDiagSumSq_zeros2 :
    offDiagSumSq [[(0 : ℚ), 0], [0, 0]] = 0 := by
  norm_num [offDiagSumSq, offDiagAux, sumSqExcept, sumSq]

/-- C6 counterexample to the claim as stated: on the all-zero 2x2 batches,
the implementation computes 0 + 25*(2*relu(1 - sqrt(0 + 0.0001))) + 0
= 25 * 2 * 99/100 = 99/2 = 49.5, while the claimed formula with the true
per-batch standard deviation gives 25 * 2 * relu(1 - 0) = 50; the epsilon
inside the square root makes the values differ. -/
theorem c6_counterexample :
    vicregLoss ratSqrt [[0, 0], [0, 0]] [[0, 0], [0, 0]] = some (99 / 2)
    ∧ vicregClaimFormula ratSqrt [[0, 0], [0, 0]] [[0, 0], [0, 0]] = some 50
    ∧ ((99 : ℚ) / 2) ≠ 50 := by
  refine ⟨?_, ?_, by norm_num⟩
  · unfold vicregLoss
    rw [mseLoss_zeros2, stdHinges_zeros2]
    simp only [Option.some_bind]
    have hfm : fmean [(99 : ℚ) / 100, 99 / 100] = some (99 / 100) := by
      norm_num [fmean]
    rw [hfm]
    simp only [Option.some_bind]
    rw [centerCols_zeros2]
    simp only [Option.some_bind]
    rw [covMatrix_zeros2]
    simp only [Option.some_bind]
    rw [offDiagonal_zeros2]
    norm_num
  · unfold vicregClaimFormula
    rw [mseLoss_zeros2, stdHingesClaim_zeros2]
    simp only [Option.some_bind]
    have hfm : fmean [(1 : ℚ), 1] = some 1 := by
      norm_num [fmean]
    rw [hfm]
    simp only [Option.some_bind]
    rw [centerCols_zeros2]
    simp only [Option.some_bind]
    rw [covMatrix_zeros2]
    simp only [Option.some_bind]
    rw [offDiagSumSq_zeros2]
    norm_num

end JEPA

namespace JEPA

/-! ## Claim C10: encoder outputs are non-negative, predictor outputs are
not constrained -/

theorem relu_nonneg (q : ℚ) : 0 ≤ relu q := le_max_right q 0

theorem forall_nonneg_map_relu (l : List ℚ) :
    (l.map relu).Forall (fun v => 0 ≤ v) :=
  forall_map relu _ l relu_nonneg

theorem encoderForward_nonneg (p : EncoderParams) (x : Tensor3) :
    (encoderForward p x).Forall (fun v => 0 ≤ v) :=
  forall_nonneg_map_relu _

/-- C10.  Every component of the Encoder output is non-negative (the fc
stage ends in a ReLU), hence rollout prediction index 0 and every target
representation lie in the non-negative orthant; while the Predictor, ending
in a plain linear layer, is not so constrained: there are parameters and
inputs whose predicted latent has a negative component. -/
theorem c10_encoder_nonneg_predictor_not :
    (∀ (p : EncoderParams) (x : Tensor3),
      (encoderForward p x).Forall (fun v => 0 ≤ v))
    ∧ (∀ (p : EncoderParams) (pr : List ℚ → List ℚ → List ℚ)
        (states : List Tensor3) (actions : List (List ℚ)),
        (((JEPAforward (encoderForward p) pr states actions).getD
            []).headD []).Forall (fun v => 0 ≤ v))
    ∧ (∀ (p : EncoderParams) (states : List (List Tensor3)),
        (getTargetRepresentations (encoderForward p) states).Forall
          (fun traj => traj.Forall (fun r => r.Forall (fun v => 0 ≤ v))))
    ∧ (∃ (pp : PredictorParams) (r a : List ℚ) (v : ℚ),
        v ∈ predictorForward pp r a ∧ v < 0) := by
  refine ⟨encoderForward_nonneg, ?_, ?_, ?_⟩
  · intro p pr states actions
    cases states with
    | nil => trivial
    | cons s0 rest =>
      show (((if (s0 :: rest).length - 1 ≤ actions.length
          then some (encoderForward p s0 ::
            unroll pr (encoderForward p s0)
              (actions.take ((s0 :: rest).length - 1)))
          else none).getD []).headD []).Forall (fun v => 0 ≤ v)
      by_cases h : (s0 :: rest).length - 1 ≤ actions.length
      · rw [if_pos h]
        simp only [Option.getD_some, List.headD_cons]
        exact encoderForward_nonneg p s0
      · rw [if_neg h]
        trivial
  · intro p states
    exact forall_map _ _ _
      (fun traj => forall_map _ _ _ (encoderForward_nonneg p))
  · refine ⟨{ w1 := [[]], b1 := [1], w2 := [[-1]], b2 := [0] },
      [], [], -1, ?_, by norm_num⟩
    have hstep : predictorForward
        { w1 := [[]], b1 := [1], w2 := [[-1]], b2 := [0] } [] [] = [-1] := by
      unfold predictorForward linear
      norm_num [dot, relu]
    rw [hstep]
    simp

end JEPA
